import Mathlib

/-!
Shallow embedding of `src/repo2file.py` (a tool that walks a directory tree,
selects files by ignore/whitelist glob patterns and concatenates their contents).

The host platform is modelled as POSIX: `os.sep = "/"`, so the
`path.replace(os.sep, "/")` normalisations in the source are the identity and
are not reproduced; `fnmatch.fnmatch` coincides with `fnmatch.fnmatchcase`.

Strings are Lean `String`s (in this toolchain a `String` is a list of
characters, so all definitions compute and `decide` works on them).
-/

namespace Repo2File

/-! ### Model of CPython `fnmatch.fnmatchcase`

`fnmatch.fnmatchcase(name, pat)` compiles `pat` with `fnmatch.translate` and
full-matches `name` against the resulting regex.  The definitions below
implement the same semantics directly on character lists:
`*` matches any run of characters (including the empty run), `?` matches one
character, and `[...]` is a character class with `!` negation, a literal `]`
when it is the first member, `lo-hi` ranges (invalid ranges, whose endpoints
are out of order, are removed together with their endpoint characters, exactly
as `translate` does), and an unterminated `[` taken literally. -/

/-- Scan for the first unescaped `]`; returns the characters before it and the
characters after it (`translate`'s `while j < n and pat[j] != ']'` loop). -/
def splitOnRB : List Char → Option (List Char × List Char)
  | [] => none
  | c :: cs =>
    if c = ']' then some ([], cs)
    else
      match splitOnRB cs with
      | some ab => some (c :: ab.1, ab.2)
      | none => none

/-- Bracket-class scan of `translate`: starting after a `[`, skip a leading
`!`, then a leading `]` (which is then a literal member), then scan to the
closing `]`.  Returns `(stuff, rest)` where `stuff` is the class body and
`rest` the pattern after the closing bracket, or `none` when the class is
unterminated (in which case `[` is a literal character). -/
def scanClass : List Char → Option (List Char × List Char)
  | '!' :: ']' :: t => (splitOnRB t).map (fun ab => ('!' :: ']' :: ab.1, ab.2))
  | '!' :: t => (splitOnRB t).map (fun ab => ('!' :: ab.1, ab.2))
  | ']' :: t => (splitOnRB t).map (fun ab => (']' :: ab.1, ab.2))
  | t => splitOnRB t

/-- Chunking pass of `translate` for a class body containing `-`: the body is
cut at each `-` that can act as a range separator.  The first character of the
body cannot (`k = i+1`), and after a separator the following two positions
cannot (`k = k+3`); `skip` counts how many upcoming positions are immune. -/
def chunkAux : Nat → List Char → List Char → List (List Char)
  | _, acc, [] => [acc.reverse]
  | 0, acc, c :: rest =>
    if c = '-' then acc.reverse :: chunkAux 2 [] rest
    else chunkAux 0 (c :: acc) rest
  | s + 1, acc, c :: rest => chunkAux s (c :: acc) rest

/-- Split a class body into chunks; a trailing empty chunk means the body
ended in a separating `-`, which `translate` turns into a literal `-` appended
to the previous chunk (`chunks[-1] += '-'`). -/
def splitChunks (content : List Char) : List (List Char) :=
  let raw := chunkAux 1 [] content
  match raw.getLast? with
  | some [] => raw.dropLast.dropLast ++ [raw.dropLast.getLastD [] ++ ['-']]
  | _ => raw

/-- Removal of invalid ranges, right to left (`translate`'s
`for k in range(len(chunks)-1, 0, -1)` loop): when the range formed by the
last character of a chunk and the first character of its right neighbour is
decreasing, both endpoint characters are dropped and the chunks merged. -/
def mergeInvalid : List (List Char) → List (List Char)
  | [] => []
  | [c] => [c]
  | c :: rest =>
    match mergeInvalid rest with
    | [] => [c]
    | d :: ds =>
      match c.getLast?, d.head? with
      | some x, some y => if y < x then (c.dropLast ++ d.tail) :: ds else c :: d :: ds
      | _, _ => c :: d :: ds

/-- The ranges denoted by the `-` separators between adjacent chunks. -/
def junctions : List (List Char) → List (Char × Char)
  | a :: b :: rest => (a.getLastD '-', b.headD '-') :: junctions (b :: rest)
  | _ => []

/-- Membership in the character set denoted by a chunk list: any character of
a chunk, or any character inside one of the junction ranges. -/
def inChunks (chunks : List (List Char)) (c : Char) : Bool :=
  chunks.any (fun ch => ch.contains c) ||
    (junctions chunks).any (fun xy => xy.1 ≤ c && c ≤ xy.2)

/-- Whether the chunk list renders to an empty class body (`translate`'s
`if not stuff` / `elif stuff == '!'` cases). -/
def joinedEmpty : List (List Char) → Bool
  | [] => true
  | [x] => x.isEmpty
  | _ => false

/-- Whether character `c` is matched by the bracket class with body `stuff`:
a leading `!` negates; an empty body never matches (`(?!)`) and a negated
empty body matches any character (`.`); otherwise membership in the chunk
set, negated if required. -/
def classMatch (stuff : List Char) (c : Char) : Bool :=
  let negated : Bool := match stuff with | '!' :: _ => true | _ => false
  let content := if negated then stuff.tail else stuff
  if content.contains '-' then
    let chunks := mergeInvalid (splitChunks content)
    if joinedEmpty chunks then negated
    else (inChunks chunks c) != negated
  else
    if content.isEmpty then negated
    else (content.contains c) != negated

/-- All suffixes of a character list, longest first, including the empty one
(the candidate remainders for a `*` wildcard). -/
def allSuffixes : List Char → List (List Char)
  | [] => [[]]
  | c :: cs => (c :: cs) :: allSuffixes cs

/-- Fuelled glob matcher: `globF fuel pat name` full-matches `name` against
the glob pattern `pat`.  Every recursive call consumes one unit of fuel and
strictly shrinks the pattern, so `pat.length + 1` units always suffice
(`fnmatch` below instantiates the fuel that way). -/
def globF : Nat → List Char → List Char → Bool
  | 0, _, _ => false
  | _ + 1, [], name => name.isEmpty
  | f + 1, '?' :: ps, name =>
    match name with
    | [] => false
    | _ :: ns => globF f ps ns
  | f + 1, '*' :: ps, name => (allSuffixes name).any (fun suf => globF f ps suf)
  | f + 1, '[' :: ps, name =>
    (match scanClass ps with
     | none =>
       match name with
       | [] => false
       | c :: ns => c == '[' && globF f ps ns
     | some (stuff, rest) =>
       match name with
       | [] => false
       | c :: ns => classMatch stuff c && globF f rest ns)
  | f + 1, p :: ps, name =>
    match name with
    | [] => false
    | c :: ns => c == p && globF f ps ns

/-- Model of `fnmatch.fnmatch(name, pat)` on POSIX (`normcase` is the
identity there, so this is `fnmatchcase`). -/
def fnmatch (name pat : String) : Bool :=
  globF (pat.data.length + 1) pat.data name.data

/-! ### String helpers used by `path_matches_pattern` -/

/-- Python `str.split("/")` on a character list: `""` splits to `[""]`, and
empty segments produced by adjacent, leading or trailing slashes are kept. -/
def splitSl : List Char → List (List Char)
  | [] => [[]]
  | c :: rest =>
    match splitSl rest with
    | [] => [[]]
    | s :: ss => if c = '/' then [] :: s :: ss else (c :: s) :: ss

/-- Python `"/".join` on character lists. -/
def joinSl : List (List Char) → List Char
  | [] => []
  | [x] => x
  | x :: xs => x ++ '/' :: joinSl xs

/-- `path.split("/")` at the `String` level. -/
def pySplit (s : String) : List String := (splitSl s.data).map String.mk

/-- `"/".join(parts)` at the `String` level. -/
def joinParts (parts : List String) : String := String.mk (joinSl (parts.map String.data))

/-- Model of `os.path.basename` on POSIX: everything after the last `/`. -/
def basename (p : String) : String :=
  String.mk ((p.data.reverse.takeWhile (fun c => c ≠ '/')).reverse)

/-- `pattern.startswith("*")`. -/
def startsStar (s : String) : Bool := s.data.head? == some '*'

/-- `pattern.endswith("/")`. -/
def endsSlash (s : String) : Bool := s.data.getLast? == some '/'

/-- `"/" in pattern`. -/
def strHasSlash (s : String) : Bool := s.data.contains '/'

/-- The nonempty suffixes of a segment list, longest first: the candidate
`path_parts[j:]` for `j in range(i, len(path_parts))` in the `**` loop. -/
def tails1 : List String → List (List String)
  | [] => []
  | p :: ps => (p :: ps) :: tails1 ps

/-! ### `path_matches_pattern` and `should_include_path` -/

/-- The segment-walking loop of `path_matches_pattern`, with the recursive
re-invocation on joined suffix strings abstracted as `rec`: a `**` as last
pattern segment matches everything; an inner `**` tries every nonempty suffix
of the remaining path; other segments must `fnmatch` positionally; at the end
the path must be fully consumed. -/
def matchLoopF (rec : String → String → Bool) : List String → List String → Bool
  | [], pathRem => pathRem.isEmpty
  | p :: prest, pathRem =>
    if p = "**" then
      match prest with
      | [] => true
      | _ :: _ => (tails1 pathRem).any (fun suf => rec (joinParts suf) (joinParts prest))
    else
      match pathRem with
      | [] => false
      | s :: srest => fnmatch s p && matchLoopF rec prest srest

/-- The `if pattern.endswith("/"): pattern += "**"` augmentation. -/
def augPattern (pattern : String) : String :=
  if endsSlash pattern then pattern ++ "**" else pattern

/-- Fuelled `path_matches_pattern`: extension patterns (`*`-initial,
slash-free) are matched against the basename only; a trailing `/` gets `**`
appended; otherwise segment matching.  Each recursive re-invocation strictly
shrinks the pattern string, so `pattern.length + 1` units of fuel always
suffice (`pmpF_fuel_irrelevant` below). -/
def pmpF : Nat → String → String → Bool
  | 0, _, _ => false
  | fuel + 1, path, pattern =>
    if startsStar pattern && !strHasSlash pattern then
      fnmatch (basename path) pattern
    else
      matchLoopF (pmpF fuel) (pySplit (augPattern pattern)) (pySplit path)

/-- Model of `path_matches_pattern(path, pattern)` from `src/repo2file.py`. -/
def path_matches_pattern (path pattern : String) : Bool :=
  pmpF (pattern.length + 1) path pattern

/-- Model of `should_include_path(path, ignore_patterns, whitelist_patterns)`
from `src/repo2file.py`. -/
def should_include_path (path : String) (ignore_patterns whitelist_patterns : List String) : Bool :=
  if ignore_patterns.any (fun pat => path_matches_pattern path pat) then false
  else if !whitelist_patterns.isEmpty then
    whitelist_patterns.any (fun pat => path_matches_pattern path pat)
  else true

/-! ### Directory-walk model

The filesystem below a root is a finite tree of named entries, children in
`os.listdir` order.  A file's content is `Except.ok text` when opening,
reading and UTF-8-decoding it succeeds, and `Except.error msg` (with `msg`
the `str(e)` of the raised exception) when it fails. -/

mutual
/-- One directory entry: a file with its (possibly unreadable) content, or a
subdirectory with its children. -/
inductive Entry where
  | file (name : String) (content : Except String String)
  | dir (name : String) (children : EntryList)
/-- The children of a directory, in `os.listdir` order. -/
inductive EntryList where
  | nil
  | cons (e : Entry) (rest : EntryList)
end

/-- Build an `EntryList` from a `List Entry`. -/
def ofList : List Entry → EntryList
  | [] => EntryList.nil
  | e :: rest => EntryList.cons e (ofList rest)

/-- Model of `os.path.join(root, name)` on POSIX for a non-absolute `name`. -/
def pyJoin (root name : String) : String :=
  if root = "" then name
  else if root.data.getLast? = some '/' then root ++ name
  else root ++ "/" ++ name

/-- The path of a child relative to the walk root:
`os.path.relpath(os.path.join(root, name), repo_path)`, tracked positionally
(the walk passes the relative prefix of each directory down). -/
def relJoin (relPrefix name : String) : String :=
  if relPrefix = "" then name else relPrefix ++ "/" ++ name

/-- Observable outcome of the write pass: the text written to the output
file, the error lines printed for files that failed to read, the number of
progress-bar updates, and the number of file blocks written. -/
structure WalkOut where
  output : String
  errors : List String
  progress : Nat
  written : Nat
deriving Repr, DecidableEq

/-- The empty outcome. -/
def emptyW : WalkOut := ⟨"", [], 0, 0⟩

/-- Sequential composition of outcomes. -/
def mergeW (a b : WalkOut) : WalkOut :=
  ⟨a.output ++ b.output, a.errors ++ b.errors, a.progress + b.progress, a.written + b.written⟩

/-- The 20-`=` marker line content. -/
def eqMarker : String := "===================="

/-- The framed block written for one successfully read file
(`outfile.write` calls in `process_repository`). -/
def fileBlock (relPath content : String) : String :=
  relPath ++ "\n" ++ eqMarker ++ "\n" ++ content ++ "\n" ++ eqMarker ++ "\n\n"

/-- The line printed when reading a file raises
(`print(f"Error processing file {file_path}: {str(e)}")`). -/
def errorLine (relPath msg : String) : String :=
  "Error processing file " ++ relPath ++ ": " ++ msg

/-- Outcome of the per-file `try/except/finally` body for one included file:
on success the framed block is written; on failure nothing is written and the
error is printed; the progress bar advances either way. -/
def processFile (relPath : String) (content : Except String String) : WalkOut :=
  match content with
  | .ok text => ⟨fileBlock relPath text, [], 1, 1⟩
  | .error msg => ⟨"", [errorLine relPath msg], 1, 0⟩

/-- The file loop of one `os.walk` triple in `process_repository`: each file
of the current directory whose relative path passes `should_include_path` is
processed, in listing order. -/
def filesOut (ig wl : List String) (relPrefix : String) : EntryList → WalkOut
  | .nil => emptyW
  | .cons (.file n c) rest =>
    if should_include_path (relJoin relPrefix n) ig wl then
      mergeW (processFile (relJoin relPrefix n) c) (filesOut ig wl relPrefix rest)
    else filesOut ig wl relPrefix rest
  | .cons (.dir _ _) rest => filesOut ig wl relPrefix rest

mutual
/-- Contribution of one entry to the descent of `process_repository`'s walk:
files contribute nothing here (they were handled by the parent's file loop);
a subdirectory is pruned — contributing nothing and never being visited —
unless its *joined* (root-prefixed) path passes the policy, exactly
`dirs[:] = [d for d in dirs if should_include_path(os.path.join(root, d), ...)]`;
a kept subdirectory contributes its own file loop followed by its own descent
(`os.walk` top-down order). -/
def walkEntry (ig wl : List String) (joinPrefix relPrefix : String) : Entry → WalkOut
  | .file _ _ => emptyW
  | .dir d sub =>
    if should_include_path (pyJoin joinPrefix d) ig wl then
      mergeW (filesOut ig wl (relJoin relPrefix d) sub)
        (walkSubdirs ig wl (pyJoin joinPrefix d) (relJoin relPrefix d) sub)
    else emptyW
/-- Descent of `process_repository`'s walk below one directory: the kept
subdirectories are visited in listing order. -/
def walkSubdirs (ig wl : List String) (joinPrefix relPrefix : String) : EntryList → WalkOut
  | .nil => emptyW
  | .cons e rest =>
    mergeW (walkEntry ig wl joinPrefix relPrefix e) (walkSubdirs ig wl joinPrefix relPrefix rest)
end

/-- The whole write pass over the children of the root: the root's own files
first, then the descent. -/
def walkChildren (ig wl : List String) (joinPrefix relPrefix : String) (entries : EntryList) : WalkOut :=
  mergeW (filesOut ig wl relPrefix entries) (walkSubdirs ig wl joinPrefix relPrefix entries)

/-- The file loop of one `os.walk` triple in `count_files`. -/
def countHere (ig wl : List String) (relPrefix : String) : EntryList → Nat
  | .nil => 0
  | .cons (.file n _) rest =>
    (if should_include_path (relJoin relPrefix n) ig wl then 1 else 0) +
      countHere ig wl relPrefix rest
  | .cons (.dir _ _) rest => countHere ig wl relPrefix rest

mutual
/-- Contribution of one entry to the descent of `count_files`'s walk (same
pruning as the write pass). -/
def countEntry (ig wl : List String) (joinPrefix relPrefix : String) : Entry → Nat
  | .file _ _ => 0
  | .dir d sub =>
    if should_include_path (pyJoin joinPrefix d) ig wl then
      countHere ig wl (relJoin relPrefix d) sub +
        countSubdirs ig wl (pyJoin joinPrefix d) (relJoin relPrefix d) sub
    else 0
/-- Descent of `count_files`'s walk below one directory. -/
def countSubdirs (ig wl : List String) (joinPrefix relPrefix : String) : EntryList → Nat
  | .nil => 0
  | .cons e rest =>
    countEntry ig wl joinPrefix relPrefix e + countSubdirs ig wl joinPrefix relPrefix rest
end

/-- Model of `count_files(repo_path, ignore_patterns, whitelist_patterns)`:
the dry walk that only counts included files. -/
def count_files (repoPath : String) (ig wl : List String) (entries : EntryList) : Nat :=
  countHere ig wl "" entries + countSubdirs ig wl repoPath "" entries

/-- The included files of the current directory, in listing order, with their
relative paths and contents. -/
def selectedHere (ig wl : List String) (relPrefix : String) :
    EntryList → List (String × Except String String)
  | .nil => []
  | .cons (.file n c) rest =>
    if should_include_path (relJoin relPrefix n) ig wl then
      (relJoin relPrefix n, c) :: selectedHere ig wl relPrefix rest
    else selectedHere ig wl relPrefix rest
  | .cons (.dir _ _) rest => selectedHere ig wl relPrefix rest

mutual
/-- The included files contributed by one entry of the descent, in walk
order. -/
def selectedEntry (ig wl : List String) (joinPrefix relPrefix : String) :
    Entry → List (String × Except String String)
  | .file _ _ => []
  | .dir d sub =>
    if should_include_path (pyJoin joinPrefix d) ig wl then
      selectedHere ig wl (relJoin relPrefix d) sub ++
        selectedSubdirs ig wl (pyJoin joinPrefix d) (relJoin relPrefix d) sub
    else []
/-- The included files contributed by the descent below one directory. -/
def selectedSubdirs (ig wl : List String) (joinPrefix relPrefix : String) :
    EntryList → List (String × Except String String)
  | .nil => []
  | .cons e rest =>
    selectedEntry ig wl joinPrefix relPrefix e ++ selectedSubdirs ig wl joinPrefix relPrefix rest
end

/-- All files the walk selects for processing (the ones whose `try` block is
entered, i.e. whose read is attempted), in walk order. -/
def selectedFiles (ig wl : List String) (joinPrefix relPrefix : String)
    (entries : EntryList) : List (String × Except String String) :=
  selectedHere ig wl relPrefix entries ++ selectedSubdirs ig wl joinPrefix relPrefix entries

mutual
/-- The directories (given by relative path) that one entry of the descent
makes the walk visit: a pruned subdirectory's subtree is never visited. -/
def visitedEntry (ig wl : List String) (joinPrefix relPrefix : String) : Entry → List String
  | .file _ _ => []
  | .dir d sub =>
    if should_include_path (pyJoin joinPrefix d) ig wl then
      relJoin relPrefix d :: visitedSubdirs ig wl (pyJoin joinPrefix d) (relJoin relPrefix d) sub
    else []
/-- The directories the descent below one directory makes the walk visit. -/
def visitedSubdirs (ig wl : List String) (joinPrefix relPrefix : String) : EntryList → List String
  | .nil => []
  | .cons e rest =>
    visitedEntry ig wl joinPrefix relPrefix e ++ visitedSubdirs ig wl joinPrefix relPrefix rest
end

/-- Result of one run of `process_repository`: the progress-bar total
computed by the counting pass, and the write pass's outcome. -/
structure RunResult where
  total : Nat
  run : WalkOut
deriving Repr, DecidableEq

/-- Model of `process_repository(repo_path, output_file, ignore_patterns,
whitelist_patterns)`: count first, then walk and write.  The `output_file`
argument only names where the output text goes and does not influence it. -/
def process_repository (repoPath : String) (outputFile : String) (ig wl : List String)
    (entries : EntryList) : RunResult :=
  let _ := outputFile
  ⟨count_files repoPath ig wl entries, walkChildren ig wl repoPath "" entries⟩

/-- A pattern (or pattern fragment) with no glob metacharacter: `fnmatch`
against it is plain string equality. -/
def globLiteral (cs : List Char) : Prop := '*' ∉ cs ∧ '?' ∉ cs ∧ '[' ∉ cs

/-- Sequential composition of a list of per-file outcomes. -/
def listMergeW (l : List WalkOut) : WalkOut := l.foldr mergeW emptyW

/-- Concatenation of a list of strings in order. -/
def joinStrings (l : List String) : String := l.foldr (· ++ ·) ""

/-! ### Lemmas: splitting and joining on `/` -/

theorem splitSl_ne_nil (cs : List Char) : splitSl cs ≠ [] := by
  cases cs with
  | nil => simp [splitSl]
  | cons c rest =>
    rw [splitSl]
    cases h : splitSl rest with
    | nil => simp
    | cons s ss => by_cases hc : c = '/' <;> simp [hc]

theorem splitSl_append (xs ys : List Char) :
    splitSl (xs ++ '/' :: ys) = splitSl xs ++ splitSl ys := by
  induction xs with
  | nil =>
    cases h : splitSl ys with
    | nil => exact absurd h (splitSl_ne_nil ys)
    | cons s ss => simp [splitSl, h]
  | cons c rest ih =>
    cases h : splitSl rest with
    | nil => exact absurd h (splitSl_ne_nil rest)
    | cons s ss =>
      rw [h] at ih
      simp only [List.cons_append, splitSl, List.append_eq]
      rw [ih]
      by_cases hc : c = '/' <;> simp [hc, h]

theorem joinSl_cons (x : List Char) (xs : List (List Char)) (h : xs ≠ []) :
    joinSl (x :: xs) = x ++ '/' :: joinSl xs := by
  cases xs with
  | nil => exact absurd rfl h
  | cons y ys => rfl

theorem joinSl_cons_head (c : Char) (s : List Char) (ss : List (List Char)) :
    joinSl ((c :: s) :: ss) = c :: joinSl (s :: ss) := by
  cases ss with
  | nil => rfl
  | cons t ts => rfl

theorem joinSl_append (xss yss : List (List Char)) (hx : xss ≠ []) (hy : yss ≠ []) :
    joinSl (xss ++ yss) = joinSl xss ++ '/' :: joinSl yss := by
  induction xss with
  | nil => exact absurd rfl hx
  | cons x xs ih =>
    cases xs with
    | nil =>
      simp only [List.cons_append, List.nil_append]
      rw [joinSl_cons x yss hy]
      rfl
    | cons y ys =>
      have hxs : (y :: ys : List (List Char)) ≠ [] := by simp
      rw [List.cons_append, joinSl_cons x ((y :: ys) ++ yss) (by simp),
        joinSl_cons x (y :: ys) hxs, ih hxs]
      simp

theorem joinSl_splitSl (cs : List Char) : joinSl (splitSl cs) = cs := by
  induction cs with
  | nil => rfl
  | cons c rest ih =>
    cases h : splitSl rest with
    | nil => exact absurd h (splitSl_ne_nil rest)
    | cons s ss =>
      rw [h] at ih
      simp only [splitSl, h]
      split_ifs with hc
      · rw [joinSl_cons [] (s :: ss) (by simp), ih]
        simp [hc]
      · rw [joinSl_cons_head, ih]

theorem splitSl_no_slash (cs : List Char) (h : '/' ∉ cs) : splitSl cs = [cs] := by
  induction cs with
  | nil => rfl
  | cons c rest ih =>
    have hc : c ≠ '/' := fun e => h (e ▸ List.mem_cons_self c rest)
    have hr : '/' ∉ rest := fun m => h (List.mem_cons_of_mem c m)
    simp [splitSl, ih hr, hc]

theorem mem_splitSl_no_slash {cs x : List Char} (hx : x ∈ splitSl cs) : '/' ∉ x := by
  induction cs generalizing x with
  | nil =>
    simp only [splitSl, List.mem_singleton] at hx
    subst hx; simp
  | cons c rest ih =>
    cases h : splitSl rest with
    | nil => exact absurd h (splitSl_ne_nil rest)
    | cons s ss =>
      simp only [splitSl, h] at hx
      by_cases hc : c = '/'
      · simp only [if_pos hc, List.mem_cons] at hx
        rcases hx with h1 | h1 | h1
        · subst h1; simp
        · rw [h1]; exact ih (h.symm ▸ List.mem_cons_self s ss)
        · exact ih (h.symm ▸ List.mem_cons_of_mem s h1)
      · simp only [if_neg hc, List.mem_cons] at hx
        rcases hx with h1 | h1
        · subst h1
          intro hm
          rcases List.mem_cons.mp hm with h2 | h2
          · exact hc h2.symm
          · exact ih (h.symm ▸ List.mem_cons_self s ss) h2
        · exact ih (h.symm ▸ List.mem_cons_of_mem s h1)

theorem mem_splitSl_subset {cs x : List Char} (hx : x ∈ splitSl cs) : ∀ c ∈ x, c ∈ cs := by
  induction cs generalizing x with
  | nil =>
    simp only [splitSl, List.mem_singleton] at hx
    subst hx; simp
  | cons c rest ih =>
    cases h : splitSl rest with
    | nil => exact absurd h (splitSl_ne_nil rest)
    | cons s ss =>
      simp only [splitSl, h] at hx
      by_cases hc : c = '/'
      · simp only [if_pos hc, List.mem_cons] at hx
        rcases hx with h1 | h1 | h1
        · subst h1; simp
        · rw [h1]
          exact fun d hd => List.mem_cons_of_mem c (ih (h.symm ▸ List.mem_cons_self s ss) d hd)
        · exact fun d hd => List.mem_cons_of_mem c (ih (h.symm ▸ List.mem_cons_of_mem s h1) d hd)
      · simp only [if_neg hc, List.mem_cons] at hx
        rcases hx with h1 | h1
        · subst h1
          intro d hd
          rcases List.mem_cons.mp hd with h2 | h2
          · exact h2 ▸ List.mem_cons_self c rest
          · exact List.mem_cons_of_mem c (ih (h.symm ▸ List.mem_cons_self s ss) d h2)
        · exact fun d hd => List.mem_cons_of_mem c (ih (h.symm ▸ List.mem_cons_of_mem s h1) d hd)

theorem splitSl_joinSl (parts : List (List Char)) (hne : parts ≠ [])
    (h : ∀ x ∈ parts, '/' ∉ x) : splitSl (joinSl parts) = parts := by
  induction parts with
  | nil => exact absurd rfl hne
  | cons x xs ih =>
    cases xs with
    | nil => exact splitSl_no_slash x (h x (by simp))
    | cons y ys =>
      rw [joinSl_cons x (y :: ys) (by simp), splitSl_append,
        splitSl_no_slash x (h x (by simp)),
        ih (by simp) (fun z hz => h z (List.mem_cons_of_mem x hz))]
      rfl

/-! ### Lemmas: `String`-level split and join -/

theorem pySplit_ne_nil (s : String) : pySplit s ≠ [] := by
  intro hcon
  exact splitSl_ne_nil s.data (by simpa [pySplit] using hcon)

theorem joinParts_pySplit (s : String) : joinParts (pySplit s) = s := by
  unfold joinParts pySplit
  rw [List.map_map]
  have hid : (String.data ∘ String.mk) = id := rfl
  rw [hid, List.map_id, joinSl_splitSl]

theorem pySplit_joinParts (parts : List String) (hne : parts ≠ [])
    (h : ∀ x ∈ parts, '/' ∉ x.data) : pySplit (joinParts parts) = parts := by
  unfold pySplit joinParts
  rw [show (String.mk (joinSl (parts.map String.data))).data
        = joinSl (parts.map String.data) from rfl]
  rw [splitSl_joinSl (parts.map String.data) (by simpa using hne)
    (by
      intro x hx
      obtain ⟨y, hy, rfl⟩ := List.mem_map.mp hx
      exact h y hy)]
  rw [List.map_map]
  have hid : (String.mk ∘ String.data) = id := by
    funext x
    rfl
  rw [hid, List.map_id]

theorem joinParts_cons_data (x : String) (xs : List String) (h : xs ≠ []) :
    (joinParts (x :: xs)).data = x.data ++ '/' :: (joinParts xs).data := by
  unfold joinParts
  simp only [List.map_cons]
  rw [joinSl_cons x.data (xs.map String.data) (by simpa using h)]

theorem joinParts_cons_length (x : String) (xs : List String) (h : xs ≠ []) :
    (joinParts (x :: xs)).length = x.length + 1 + (joinParts xs).length := by
  have hd := joinParts_cons_data x xs h
  show (joinParts (x :: xs)).data.length = x.data.length + 1 + (joinParts xs).data.length
  rw [hd, List.length_append, List.length_cons]
  omega

theorem joinParts_length_mono (pre : List String) (x : String) (t : List String) :
    (joinParts (x :: t)).length ≤ (joinParts (pre ++ x :: t)).length := by
  induction pre with
  | nil => exact le_refl _
  | cons p ps ih =>
    rw [List.cons_append, joinParts_cons_length p (ps ++ x :: t) (by simp)]
    omega

theorem augPattern_length (pattern : String) : (augPattern pattern).length ≤ pattern.length + 2 := by
  unfold augPattern
  split_ifs
  · rw [String.length_append]
    have h2 : ("**" : String).length = 2 := rfl
    omega
  · omega

theorem aug_split_tail_length (pattern : String) (pre t : List String) (ht : t ≠ [])
    (h : pySplit (augPattern pattern) = pre ++ "**" :: t) :
    (joinParts t).length + 1 ≤ pattern.length := by
  have hjoin : joinParts (pre ++ "**" :: t) = augPattern pattern := by
    rw [← h, joinParts_pySplit]
  have h3 : (joinParts t).length + 3 ≤ (joinParts (pre ++ "**" :: t)).length := by
    have hmono := joinParts_length_mono pre "**" t
    rw [joinParts_cons_length "**" t ht] at hmono
    have : ("**" : String).length = 2 := rfl
    omega
  have h4 := augPattern_length pattern
  rw [hjoin] at h3
  omega

/-! ### Lemmas: `fnmatch` on glob-free patterns is string equality -/

theorem globF_literal (l : List Char) (h : globLiteral l) :
    ∀ cs, globF (l.length + 1) l cs = decide (cs = l) := by
  induction l with
  | nil =>
    intro cs
    cases cs with
    | nil => rfl
    | cons c cs2 => simp [globF]
  | cons c ls ih =>
    intro cs
    obtain ⟨h1, h2, h3⟩ := h
    have hq : c ≠ '?' := fun e => h2 (by rw [← e]; exact List.mem_cons_self c ls)
    have hs : c ≠ '*' := fun e => h1 (by rw [← e]; exact List.mem_cons_self c ls)
    have hb : c ≠ '[' := fun e => h3 (by rw [← e]; exact List.mem_cons_self c ls)
    have ihx := ih ⟨fun m => h1 (List.mem_cons_of_mem c m),
      fun m => h2 (List.mem_cons_of_mem c m), fun m => h3 (List.mem_cons_of_mem c m)⟩
    cases cs with
    | nil => simp [globF, hq, hs, hb]
    | cons d ds =>
      have hlen : (c :: ls).length + 1 = ls.length + 1 + 1 := by simp
      rw [hlen]
      simp only [globF, hq, hs, hb, ihx ds]
      by_cases hdc : d = c <;> by_cases hds : ds = ls <;> simp [hdc, hds]

theorem fnmatch_literal (s p : String) (h : globLiteral p.data) :
    fnmatch s p = decide (s = p) := by
  unfold fnmatch
  rw [globF_literal p.data h s.data]
  by_cases he : s = p
  · simp [he]
  · have hd : s.data ≠ p.data := fun e => he (String.ext e)
    simp [he, hd]

/-! ### Lemmas: segment matching against a literal directory prefix -/

theorem str_data_append (a b : String) : (a ++ b).data = a.data ++ b.data := by
  cases a
  cases b
  rfl

theorem matchLoopF_lit_dstar (r : String → String → Bool) (bs : List String)
    (h : ∀ b ∈ bs, globLiteral b.data) :
    ∀ qs, matchLoopF r (bs ++ ["**"]) qs = bs.isPrefixOf qs := by
  induction bs with
  | nil =>
    intro qs
    simp [matchLoopF, List.isPrefixOf]
  | cons b bs2 ih =>
    intro qs
    have hb : b ≠ "**" := by
      intro e
      apply (h b (List.mem_cons_self b bs2)).1
      rw [e]
      decide
    have ihx := ih (fun x hx => h x (List.mem_cons_of_mem b hx))
    cases qs with
    | nil => simp [matchLoopF, hb, List.isPrefixOf]
    | cons q qs2 =>
      simp only [List.cons_append, matchLoopF, if_neg hb, List.append_eq]
      rw [fnmatch_literal q b (h b (List.mem_cons_self b bs2)), ihx qs2]
      show (decide (q = b) && bs2.isPrefixOf qs2) = ((b == q) && bs2.isPrefixOf qs2)
      by_cases he : q = b
      · simp [he]
      · have hbq : b ≠ q := fun e => he e.symm
        simp [he, hbq]

theorem startsStar_concat_slash (body : String) (h : '*' ∉ body.data) :
    startsStar (body ++ "/") = false := by
  unfold startsStar
  rw [str_data_append]
  cases hb : body.data with
  | nil => rfl
  | cons c cs =>
    have hc : c ≠ '*' := fun e => h (by rw [hb, e]; exact List.mem_cons_self _ _)
    simp [hc]

theorem endsSlash_concat_slash (body : String) : endsSlash (body ++ "/") = true := by
  unfold endsSlash
  rw [str_data_append]
  have : (body.data ++ ("/" : String).data).getLast? = some '/' := List.getLast?_concat _
  simp [this]

theorem pySplit_concat (a b : String) : pySplit (a ++ "/" ++ b) = pySplit a ++ pySplit b := by
  unfold pySplit
  rw [str_data_append, str_data_append]
  have : (("/" : String).data ++ b.data) = '/' :: b.data := rfl
  rw [List.append_assoc, this, splitSl_append, List.map_append]

theorem joinParts_append_data (as bs : List String) (ha : as ≠ []) (hb : bs ≠ []) :
    (joinParts (as ++ bs)).data = (joinParts as).data ++ '/' :: (joinParts bs).data := by
  unfold joinParts
  simp only [List.map_append]
  rw [joinSl_append _ _ (by simpa using ha) (by simpa using hb)]

theorem pySplit_globLiteral (body : String) (h : globLiteral body.data) :
    ∀ b ∈ pySplit body, globLiteral b.data := by
  intro b hb
  obtain ⟨x, hx, rfl⟩ := List.mem_map.mp hb
  have hsub := mem_splitSl_subset hx
  exact ⟨fun m => h.1 (hsub _ m), fun m => h.2.1 (hsub _ m), fun m => h.2.2 (hsub _ m)⟩

theorem pmpF_dir (fuel : Nat) (body p : String) (h : globLiteral body.data) :
    pmpF (fuel + 1) p (body ++ "/") = (pySplit body).isPrefixOf (pySplit p) := by
  have hss : startsStar (body ++ "/") = false := startsStar_concat_slash body h.1
  have hes : endsSlash (body ++ "/") = true := endsSlash_concat_slash body
  have haug : augPattern (body ++ "/") = body ++ "/" ++ "**" := by
    unfold augPattern
    rw [hes]
    simp
  have hsp : pySplit (augPattern (body ++ "/")) = pySplit body ++ ["**"] := by
    rw [haug, pySplit_concat]
    have : pySplit "**" = ["**"] := rfl
    rw [this]
  simp only [pmpF, hss, Bool.false_and]
  rw [if_neg (by simp), hsp,
    matchLoopF_lit_dstar (pmpF fuel) (pySplit body) (pySplit_globLiteral body h)]

theorem isPrefixOf_pySplit_iff (body p : String) :
    (pySplit body).isPrefixOf (pySplit p) = true ↔
      (p = body ∨ (body ++ "/").data <+: p.data) := by
  rw [List.isPrefixOf_iff_prefix]
  constructor
  · intro hpre
    obtain ⟨rest, hrest⟩ := hpre
    cases rest with
    | nil =>
      left
      have hj := congrArg joinParts hrest
      rw [List.append_nil, joinParts_pySplit, joinParts_pySplit] at hj
      exact hj.symm
    | cons r rs =>
      right
      have hj := congrArg joinParts hrest
      rw [joinParts_pySplit] at hj
      have hd : (joinParts (pySplit body ++ r :: rs)).data
          = (joinParts (pySplit body)).data ++ '/' :: (joinParts (r :: rs)).data :=
        joinParts_append_data _ _ (pySplit_ne_nil body) (by simp)
      rw [joinParts_pySplit] at hd
      refine ⟨(joinParts (r :: rs)).data, ?_⟩
      rw [str_data_append]
      have hpd := congrArg String.data hj
      rw [hd] at hpd
      rw [← hpd]
      simp

  · intro hor
    rcases hor with he | hpre
    · subst he
      exact ⟨[], by simp⟩
    · obtain ⟨r, hr⟩ := hpre
      rw [str_data_append] at hr
      have hsplit : splitSl p.data = splitSl body.data ++ splitSl r := by
        rw [← hr, List.append_assoc]
        exact splitSl_append body.data r
      refine ⟨(splitSl r).map String.mk, ?_⟩
      unfold pySplit
      rw [hsplit, List.map_append]

/-- C1: `should_include_path` excludes a path matching any ignore pattern
unconditionally; otherwise with a non-empty whitelist it includes the path iff
some whitelist pattern matches; otherwise it includes the path.  In
particular a path matching both an ignore and a whitelist pattern is
excluded. -/
theorem should_include_path_spec (p : String) (ig wl : List String) :
    ((ig.any fun pat => path_matches_pattern p pat) = true →
      should_include_path p ig wl = false) ∧
    ((ig.any fun pat => path_matches_pattern p pat) = false → wl ≠ [] →
      should_include_path p ig wl = (wl.any fun pat => path_matches_pattern p pat)) ∧
    ((ig.any fun pat => path_matches_pattern p pat) = false → wl = [] →
      should_include_path p ig wl = true) := by
  refine ⟨fun h => ?_, fun h hwl => ?_, fun h hwl => ?_⟩
  · simp [should_include_path, h]
  · simp [should_include_path, h, List.isEmpty_iff, hwl]
  · subst hwl
    simp [should_include_path, h]

theorem should_include_path_spec_witness :
    should_include_path "a.png" ["*.png"] ["a.png"] = false ∧
    should_include_path "docs/readme.md" [] ["src/**"] = false := by
  constructor
  · exact (should_include_path_spec "a.png" ["*.png"] ["a.png"]).1 (by rfl)
  · have h := (should_include_path_spec "docs/readme.md" [] ["src/**"]).2.1 rfl (by simp)
    rw [h]
    rfl

/-- C2 (counterexample): the pattern `*/` ends with `/` and matches the path
`b`, which neither equals the directory named by the pattern (`*`) nor is
nested under it — so the claimed equivalence fails for patterns whose
directory part contains glob metacharacters. -/
theorem dir_pattern_cex :
    path_matches_pattern "b" "*/" = true ∧ ("b" : String) ≠ "*" ∧
      ¬ (("*/" : String).data <+: ("b" : String).data) := by
  refine ⟨rfl, by decide, by decide⟩

/-- C2 (amended): for a pattern ending in `/` whose directory part contains
no glob metacharacter, `path_matches_pattern` accepts exactly the directory
itself and everything nested under it at any depth. -/
theorem dir_pattern_matches_iff (body p : String) (h : globLiteral body.data) :
    path_matches_pattern p (body ++ "/") = true ↔
      (p = body ∨ (body ++ "/").data <+: p.data) := by
  unfold path_matches_pattern
  rw [pmpF_dir ((body ++ "/").length) body p h]
  exact isPrefixOf_pySplit_iff body p

theorem dir_pattern_matches_iff_witness :
    path_matches_pattern "node_modules/x/y.js" ("node_modules" ++ "/") = true ∧
    path_matches_pattern "node_modules" ("node_modules" ++ "/") = true :=
  ⟨(dir_pattern_matches_iff "node_modules" "node_modules/x/y.js"
      ⟨by decide, by decide, by decide⟩).mpr (Or.inr (by decide)),
    (dir_pattern_matches_iff "node_modules" "node_modules"
      ⟨by decide, by decide, by decide⟩).mpr (Or.inl rfl)⟩

/-! ### Lemmas: the `**` split loop on the pattern `a/**/c` -/

theorem any_ext (l : List α) (f g : α → Bool) (h : ∀ x ∈ l, f x = g x) :
    l.any f = l.any g := by
  induction l with
  | nil => rfl
  | cons x xs ih =>
    simp only [List.any_cons, h x (List.mem_cons_self x xs),
      ih (fun y hy => h y (List.mem_cons_of_mem x hy))]

theorem mem_tails1_ne_nil {l xs : List String} (h : xs ∈ tails1 l) : xs ≠ [] := by
  induction l with
  | nil => simp [tails1] at h
  | cons a rest ih =>
    simp only [tails1, List.mem_cons] at h
    rcases h with h | h
    · subst h; simp
    · exact ih h

theorem mem_tails1_subset {l xs : List String} (h : xs ∈ tails1 l) : ∀ x ∈ xs, x ∈ l := by
  induction l with
  | nil => simp [tails1] at h
  | cons a rest ih =>
    simp only [tails1, List.mem_cons] at h
    rcases h with h | h
    · subst h; exact fun x hx => hx
    · exact fun x hx => List.mem_cons_of_mem a (ih h x hx)

theorem tails1_singleton_mem (l : List String) (x : String) :
    [x] ∈ tails1 l ↔ l.getLast? = some x := by
  induction l with
  | nil => simp [tails1]
  | cons a rest ih =>
    cases rest with
    | nil => simp [tails1, eq_comm]
    | cons b bs =>
      rw [List.getLast?_cons_cons]
      simp only [tails1, List.mem_cons]
      rw [← ih]
      simp [tails1]

theorem pySplit_no_slash (s : String) : ∀ x ∈ pySplit s, '/' ∉ x.data := by
  intro x hx
  obtain ⟨y, hy, rfl⟩ := List.mem_map.mp hx
  exact mem_splitSl_no_slash hy

/-- C6: `path_matches_pattern(p, "a/**/c")` holds exactly when `p` starts
with segment `a`, ends with segment `c`, and has at least two segments (the
`**` may match zero intervening segments). -/
theorem matches_a_dstar_c_iff (p : String) :
    path_matches_pattern p "a/**/c" = true ↔
      ((pySplit p).head? = some "a" ∧ (pySplit p).getLast? = some "c" ∧
        2 ≤ (pySplit p).length) := by
  unfold path_matches_pattern
  have h7 : ("a/**/c" : String).length + 1 = 7 := rfl
  rw [h7]
  have hunfold : pmpF 7 p "a/**/c" = matchLoopF (pmpF 6) ["a", "**", "c"] (pySplit p) := rfl
  rw [hunfold]
  cases hp : pySplit p with
  | nil => exact absurd hp (pySplit_ne_nil p)
  | cons s rest =>
    rw [show matchLoopF (pmpF 6) ["a", "**", "c"] (s :: rest)
        = (fnmatch s "a" && matchLoopF (pmpF 6) ["**", "c"] rest) from rfl]
    rw [show matchLoopF (pmpF 6) ["**", "c"] rest
        = (tails1 rest).any (fun suf => pmpF 6 (joinParts suf) (joinParts ["c"])) from rfl]
    have hjc : joinParts ["c"] = "c" := rfl
    rw [hjc]
    have hsuf : ∀ suf ∈ tails1 rest,
        (pmpF 6 (joinParts suf) "c") = decide (suf = ["c"]) := by
      intro suf hs
      have hne : suf ≠ [] := mem_tails1_ne_nil hs
      have hsl : ∀ x ∈ suf, '/' ∉ x.data := by
        intro x hx
        have hxr : x ∈ rest := mem_tails1_subset hs x hx
        have hxp : x ∈ pySplit p := by
          rw [hp]
          exact List.mem_cons_of_mem s hxr
        exact pySplit_no_slash p x hxp
      have hq : pySplit (joinParts suf) = suf := pySplit_joinParts suf hne hsl
      rw [show pmpF 6 (joinParts suf) "c"
          = matchLoopF (pmpF 5) ["c"] (pySplit (joinParts suf)) from rfl]
      rw [hq]
      cases suf with
      | nil => exact absurd rfl hne
      | cons t ts =>
        rw [show matchLoopF (pmpF 5) ["c"] (t :: ts)
            = (fnmatch t "c" && matchLoopF (pmpF 5) [] ts) from rfl]
        rw [fnmatch_literal t "c" ⟨by decide, by decide, by decide⟩]
        rw [show matchLoopF (pmpF 5) [] ts = ts.isEmpty from rfl]
        by_cases ht : t = "c" <;> by_cases hts : ts = [] <;>
          simp [ht, hts, List.isEmpty_iff]
    rw [any_ext (tails1 rest) _ _ hsuf,
      fnmatch_literal s "a" ⟨by decide, by decide, by decide⟩]
    simp only [Bool.and_eq_true, decide_eq_true_eq, List.any_eq_true]
    cases rest with
    | nil => simp [tails1]
    | cons r2 rs =>
      constructor
      · rintro ⟨rfl, suf, hmem, rfl⟩
        have hlast : (r2 :: rs).getLast? = some "c" := (tails1_singleton_mem _ _).mp hmem
        refine ⟨rfl, ?_, by simp⟩
        rw [List.getLast?_cons_cons]
        exact hlast
      · rintro ⟨hhead, hlast, _⟩
        have hs : s = "a" := by simpa using hhead
        rw [List.getLast?_cons_cons] at hlast
        exact ⟨hs, ["c"], (tails1_singleton_mem _ _).mpr hlast, rfl⟩

/-! ### Lemmas: a `**` split re-enters the extension-pattern rule -/

theorem pmpF_succ (f : Nat) (path pattern : String) :
    pmpF (f + 1) path pattern =
      if startsStar pattern && !strHasSlash pattern then fnmatch (basename path) pattern
      else matchLoopF (pmpF f) (pySplit (augPattern pattern)) (pySplit path) := rfl

theorem strHasSlash_eq_false (s : String) (h : '/' ∉ s.data) : strHasSlash s = false := by
  unfold strHasSlash
  cases hc : s.data.contains '/'
  · rfl
  · exact absurd (List.mem_of_elem_eq_true hc) h

theorem mem_of_getLast?_some {l : List α} {a : α} (h : l.getLast? = some a) : a ∈ l := by
  induction l with
  | nil => simp at h
  | cons x xs ih =>
    cases xs with
    | nil =>
      simp only [List.getLast?_singleton, Option.some.injEq] at h
      rw [← h]
      exact List.mem_cons_self x []
    | cons y ys =>
      rw [List.getLast?_cons_cons] at h
      exact List.mem_cons_of_mem x (ih h)

theorem takeWhile_all (p : α → Bool) (l : List α) (h : ∀ a ∈ l, p a = true) :
    l.takeWhile p = l := by
  induction l with
  | nil => rfl
  | cons a rest ih =>
    rw [List.takeWhile_cons, h a (List.mem_cons_self a rest)]
    simp only [if_true]
    rw [ih (fun b hb => h b (List.mem_cons_of_mem a hb))]

theorem basename_no_slash (f : String) (h : '/' ∉ f.data) : basename f = f := by
  unfold basename
  rw [takeWhile_all _ _ (by
    intro a ha
    have : a ∈ f.data := List.mem_reverse.mp ha
    simp only [decide_eq_true_eq]
    exact fun e => h (e ▸ this))]
  rw [List.reverse_reverse]

theorem pySplit_no_slash_self (q : String) (h : '/' ∉ q.data) : pySplit q = [q] := by
  unfold pySplit
  rw [splitSl_no_slash q.data h]
  rfl

/-- C10: for any path `a/s1/.../sk/f` with at least one intervening segment
and any slash-free, `*`-initial residual pattern `q` (such as `*.ext`) whose
glob matches the final segment `f`, the pattern `a/**/q` matches the path:
the `**` split re-invokes the matcher on the joined suffix, where `q` is
treated as an extension pattern and compared against the basename only. -/
theorem matches_dstar_extension (mids : List String) (f q : String)
    (_hm : mids ≠ []) (hmsl : ∀ x ∈ mids, '/' ∉ x.data) (hfsl : '/' ∉ f.data)
    (hq : startsStar q = true) (hqsl : '/' ∉ q.data)
    (hmatch : fnmatch f q = true) :
    path_matches_pattern (joinParts ("a" :: mids ++ [f])) ("a/**/" ++ q) = true := by
  unfold path_matches_pattern
  have hlen : ("a/**/" ++ q).length + 1 = (q.length + 5) + 1 := by
    rw [String.length_append]
    have h5 : ("a/**/" : String).length = 5 := rfl
    omega
  rw [hlen, pmpF_succ]
  have hqd : ∃ qh qt, q.data = qh :: qt := by
    cases hgd : q.data with
    | nil =>
      rw [startsStar, hgd] at hq
      exact absurd hq (by simp)
    | cons a b => exact ⟨a, b, rfl⟩
  obtain ⟨qh, qt, hqd⟩ := hqd
  have hss : startsStar ("a/**/" ++ q) = false := by
    rw [startsStar, str_data_append]
    rfl
  have hes : endsSlash ("a/**/" ++ q) = false := by
    rw [endsSlash, str_data_append, hqd, List.getLast?_append_cons]
    cases hgl : (qh :: qt).getLast? with
    | none => simp at hgl
    | some c =>
      have hcm : c ∈ qh :: qt := mem_of_getLast?_some hgl
      have hcne : c ≠ '/' := fun e => hqsl (hqd ▸ (e ▸ hcm))
      simp [hcne]
  have haug : augPattern ("a/**/" ++ q) = "a/**/" ++ q := by
    unfold augPattern
    rw [hes]
    simp
  have hsplitpat : pySplit ("a/**/" ++ q) = ["a", "**", q] := by
    have hstr : ("a/**/" ++ q) = ("a" ++ "/" ++ ("**" ++ "/" ++ q)) := by
      apply String.ext
      simp [str_data_append]
    rw [hstr, pySplit_concat, pySplit_concat,
      show pySplit "a" = ["a"] from rfl, show pySplit "**" = ["**"] from rfl,
      pySplit_no_slash_self q hqsl]
    rfl
  have hpath : pySplit (joinParts ("a" :: mids ++ [f])) = "a" :: (mids ++ [f]) := by
    apply pySplit_joinParts
    · simp
    · intro x hx
      rcases List.mem_cons.mp hx with h1 | h1
      · rw [h1]; decide
      · rcases List.mem_append.mp h1 with h2 | h2
        · exact hmsl x h2
        · rw [List.mem_singleton.mp h2]; exact hfsl
  rw [if_neg (by rw [hss]; simp), haug, hsplitpat, hpath]
  rw [show matchLoopF (pmpF (q.length + 5)) ["a", "**", q] ("a" :: (mids ++ [f]))
      = (fnmatch "a" "a" && matchLoopF (pmpF (q.length + 5)) ["**", q] (mids ++ [f])) from rfl]
  rw [show fnmatch "a" "a" = true from rfl, Bool.true_and]
  rw [show matchLoopF (pmpF (q.length + 5)) ["**", q] (mids ++ [f])
      = (tails1 (mids ++ [f])).any
          (fun suf => pmpF (q.length + 5) (joinParts suf) (joinParts [q])) from rfl]
  have hjq : joinParts [q] = q := rfl
  rw [hjq]
  apply List.any_eq_true.mpr
  refine ⟨[f], (tails1_singleton_mem _ _).mpr (List.getLast?_concat _), ?_⟩
  have hjf : joinParts [f] = f := rfl
  rw [hjf, show q.length + 5 = (q.length + 4) + 1 from rfl, pmpF_succ,
    if_pos (by rw [hq, strHasSlash_eq_false q hqsl]; rfl),
    basename_no_slash f hfsl]
  exact hmatch

theorem matches_dstar_extension_witness :
    path_matches_pattern (joinParts ["a", "s1", "x.ext"]) ("a/**/" ++ "*.ext") = true :=
  matches_dstar_extension ["s1"] "x.ext" "*.ext" (by simp) (by decide) (by decide)
    rfl (by decide) rfl

/-! ### Lemmas: the recursion of `path_matches_pattern` is fuel-insensitive -/

theorem matchLoopF_cons (r : String → String → Bool) (p : String) (prest qs : List String) :
    matchLoopF r (p :: prest) qs =
      if p = "**" then
        match prest with
        | [] => true
        | _ :: _ => (tails1 qs).any (fun suf => r (joinParts suf) (joinParts prest))
      else
        match qs with
        | [] => false
        | s :: srest => fnmatch s p && matchLoopF r prest srest := rfl

theorem matchLoopF_congr (r1 r2 : String → String → Bool) :
    ∀ (pp qs : List String),
      (∀ s t, t ≠ [] → (∃ pre, pp = pre ++ "**" :: t) →
        r1 s (joinParts t) = r2 s (joinParts t)) →
      matchLoopF r1 pp qs = matchLoopF r2 pp qs := by
  intro pp
  induction pp with
  | nil =>
    intro qs H
    rfl
  | cons p prest ih =>
    intro qs H
    by_cases hp : p = "**"
    · subst hp
      cases prest with
      | nil => rfl
      | cons p2 ps2 =>
        show (tails1 qs).any (fun suf => r1 (joinParts suf) (joinParts (p2 :: ps2)))
            = (tails1 qs).any (fun suf => r2 (joinParts suf) (joinParts (p2 :: ps2)))
        apply any_ext
        intro suf _
        exact H (joinParts suf) (p2 :: ps2) (by simp) ⟨[], rfl⟩
    · rw [matchLoopF_cons r1, matchLoopF_cons r2, if_neg hp, if_neg hp]
      cases qs with
      | nil => rfl
      | cons s srest =>
        have ihx := ih srest (fun s2 t ht hpre => by
          obtain ⟨pre, hpre⟩ := hpre
          exact H s2 t ht ⟨p :: pre, by rw [hpre]; rfl⟩)
        show (fnmatch s p && matchLoopF r1 prest srest)
            = (fnmatch s p && matchLoopF r2 prest srest)
        rw [ihx]

theorem pmpF_irrel_aux : ∀ (L : Nat) (pattern : String), pattern.length ≤ L →
    ∀ (f g : Nat) (path : String), pattern.length < f → pattern.length < g →
      pmpF f path pattern = pmpF g path pattern := by
  intro L
  induction L with
  | zero =>
    intro pattern hlen f g path hf hg
    cases f with
    | zero => exact absurd hf (by omega)
    | succ f2 =>
      cases g with
      | zero => exact absurd hg (by omega)
      | succ g2 =>
        rw [pmpF_succ, pmpF_succ]
        by_cases hc : (startsStar pattern && !strHasSlash pattern) = true
        · rw [if_pos hc, if_pos hc]
        · rw [if_neg hc, if_neg hc]
          apply matchLoopF_congr
          rintro s t ht ⟨pre, hpre⟩
          have hlt := aug_split_tail_length pattern pre t ht hpre
          exact absurd hlt (by omega)
  | succ L ihL =>
    intro pattern hlen f g path hf hg
    cases f with
    | zero => exact absurd hf (by omega)
    | succ f2 =>
      cases g with
      | zero => exact absurd hg (by omega)
      | succ g2 =>
        rw [pmpF_succ, pmpF_succ]
        by_cases hc : (startsStar pattern && !strHasSlash pattern) = true
        · rw [if_pos hc, if_pos hc]
        · rw [if_neg hc, if_neg hc]
          apply matchLoopF_congr
          rintro s t ht ⟨pre, hpre⟩
          have hlt := aug_split_tail_length pattern pre t ht hpre
          exact ihL (joinParts t) (by omega) f2 g2 s (by omega) (by omega)

/-- C9: the recursion of `path_matches_pattern` through the `**` split points
is well-founded — every recursive re-invocation strictly shrinks the pattern
string, so the fuelled recursion computes the same boolean for every
sufficiently large fuel, and `path_matches_pattern` (which runs it with fuel
`pattern.length + 1`) is its unique fixed point on well-formed string inputs:
it always returns a boolean and never signals failure. -/
theorem path_matches_pattern_total (path pattern : String) (fuel : Nat)
    (h : pattern.length < fuel) :
    pmpF fuel path pattern = path_matches_pattern path pattern :=
  pmpF_irrel_aux pattern.length pattern (le_refl _) fuel (pattern.length + 1) path h
    (by omega)

theorem path_matches_pattern_total_witness :
    pmpF 42 "a/b/c" "a/**/c" = path_matches_pattern "a/b/c" "a/**/c" :=
  path_matches_pattern_total "a/b/c" "a/**/c" 42 (by decide)

/-! ### Lemmas: the walk as a fold over the files it selects -/

theorem str_append_empty (s : String) : s ++ "" = s := by
  apply String.ext
  rw [str_data_append]
  simp

theorem str_empty_append (s : String) : "" ++ s = s := by
  apply String.ext
  rw [str_data_append]
  simp

theorem str_append_assoc (a b c : String) : (a ++ b) ++ c = a ++ (b ++ c) := by
  apply String.ext
  rw [str_data_append, str_data_append, str_data_append, str_data_append, List.append_assoc]

theorem mergeW_emptyW_left (a : WalkOut) : mergeW emptyW a = a := by
  cases a with
  | mk o e p w =>
    unfold mergeW emptyW
    simp [str_empty_append]

theorem mergeW_assoc (a b c : WalkOut) : mergeW (mergeW a b) c = mergeW a (mergeW b c) := by
  cases a
  cases b
  cases c
  unfold mergeW
  simp [str_append_assoc, Nat.add_assoc]

theorem listMergeW_cons (x : WalkOut) (xs : List WalkOut) :
    listMergeW (x :: xs) = mergeW x (listMergeW xs) := rfl

theorem listMergeW_append (xs ys : List WalkOut) :
    listMergeW (xs ++ ys) = mergeW (listMergeW xs) (listMergeW ys) := by
  induction xs with
  | nil =>
    rw [List.nil_append]
    exact (mergeW_emptyW_left _).symm
  | cons x xs2 ih =>
    rw [List.cons_append, listMergeW_cons, listMergeW_cons, ih, mergeW_assoc]

theorem filesOut_eq (ig wl : List String) (rp : String) :
    ∀ l : EntryList, filesOut ig wl rp l
      = listMergeW ((selectedHere ig wl rp l).map (fun pc => processFile pc.1 pc.2))
  | EntryList.nil => rfl
  | EntryList.cons (Entry.file n c) rest => by
    have ih := filesOut_eq ig wl rp rest
    have hf : filesOut ig wl rp (EntryList.cons (Entry.file n c) rest)
        = (if should_include_path (relJoin rp n) ig wl = true then
            mergeW (processFile (relJoin rp n) c) (filesOut ig wl rp rest)
          else filesOut ig wl rp rest) := rfl
    have hs : selectedHere ig wl rp (EntryList.cons (Entry.file n c) rest)
        = (if should_include_path (relJoin rp n) ig wl = true then
            (relJoin rp n, c) :: selectedHere ig wl rp rest
          else selectedHere ig wl rp rest) := rfl
    by_cases h : should_include_path (relJoin rp n) ig wl = true
    · rw [hf, hs, if_pos h, if_pos h, List.map_cons, listMergeW_cons, ih]
    · rw [hf, hs, if_neg h, if_neg h, ih]
  | EntryList.cons (Entry.dir d sub) rest => by
    have ih := filesOut_eq ig wl rp rest
    rw [show filesOut ig wl rp (EntryList.cons (Entry.dir d sub) rest)
        = filesOut ig wl rp rest from rfl,
      show selectedHere ig wl rp (EntryList.cons (Entry.dir d sub) rest)
        = selectedHere ig wl rp rest from rfl, ih]

mutual
theorem walkEntry_eq (ig wl : List String) (jp rp : String) :
    ∀ e : Entry, walkEntry ig wl jp rp e
      = listMergeW ((selectedEntry ig wl jp rp e).map (fun pc => processFile pc.1 pc.2))
  | Entry.file n c => rfl
  | Entry.dir d sub => by
    have hsub := walkSubdirs_eq ig wl (pyJoin jp d) (relJoin rp d) sub
    have hw : walkEntry ig wl jp rp (Entry.dir d sub)
        = (if should_include_path (pyJoin jp d) ig wl = true then
            mergeW (filesOut ig wl (relJoin rp d) sub)
              (walkSubdirs ig wl (pyJoin jp d) (relJoin rp d) sub)
          else emptyW) := rfl
    have hs : selectedEntry ig wl jp rp (Entry.dir d sub)
        = (if should_include_path (pyJoin jp d) ig wl = true then
            selectedHere ig wl (relJoin rp d) sub ++
              selectedSubdirs ig wl (pyJoin jp d) (relJoin rp d) sub
          else []) := rfl
    by_cases h : should_include_path (pyJoin jp d) ig wl = true
    · rw [hw, hs, if_pos h, if_pos h, List.map_append, listMergeW_append,
        filesOut_eq ig wl (relJoin rp d) sub, hsub]
    · rw [hw, hs, if_neg h, if_neg h]
      rfl
theorem walkSubdirs_eq (ig wl : List String) (jp rp : String) :
    ∀ l : EntryList, walkSubdirs ig wl jp rp l
      = listMergeW ((selectedSubdirs ig wl jp rp l).map (fun pc => processFile pc.1 pc.2))
  | EntryList.nil => rfl
  | EntryList.cons e rest => by
    rw [show walkSubdirs ig wl jp rp (EntryList.cons e rest)
        = mergeW (walkEntry ig wl jp rp e) (walkSubdirs ig wl jp rp rest) from rfl,
      show selectedSubdirs ig wl jp rp (EntryList.cons e rest)
        = selectedEntry ig wl jp rp e ++ selectedSubdirs ig wl jp rp rest from rfl,
      List.map_append, listMergeW_append, walkEntry_eq ig wl jp rp e,
      walkSubdirs_eq ig wl jp rp rest]
end

theorem countHere_eq (ig wl : List String) (rp : String) :
    ∀ l : EntryList, countHere ig wl rp l = (selectedHere ig wl rp l).length
  | EntryList.nil => rfl
  | EntryList.cons (Entry.file n c) rest => by
    have ih := countHere_eq ig wl rp rest
    have hc : countHere ig wl rp (EntryList.cons (Entry.file n c) rest)
        = (if should_include_path (relJoin rp n) ig wl = true then 1 else 0) +
          countHere ig wl rp rest := rfl
    have hs : selectedHere ig wl rp (EntryList.cons (Entry.file n c) rest)
        = (if should_include_path (relJoin rp n) ig wl = true then
            (relJoin rp n, c) :: selectedHere ig wl rp rest
          else selectedHere ig wl rp rest) := rfl
    by_cases h : should_include_path (relJoin rp n) ig wl = true
    · rw [hc, hs, if_pos h, if_pos h, ih, List.length_cons]
      omega
    · rw [hc, hs, if_neg h, if_neg h, ih]
      omega
  | EntryList.cons (Entry.dir d sub) rest => by
    have ih := countHere_eq ig wl rp rest
    rw [show countHere ig wl rp (EntryList.cons (Entry.dir d sub) rest)
        = countHere ig wl rp rest from rfl,
      show selectedHere ig wl rp (EntryList.cons (Entry.dir d sub) rest)
        = selectedHere ig wl rp rest from rfl, ih]

mutual
theorem countEntry_eq (ig wl : List String) (jp rp : String) :
    ∀ e : Entry, countEntry ig wl jp rp e = (selectedEntry ig wl jp rp e).length
  | Entry.file n c => rfl
  | Entry.dir d sub => by
    have hsub := countSubdirs_eq ig wl (pyJoin jp d) (relJoin rp d) sub
    have hw : countEntry ig wl jp rp (Entry.dir d sub)
        = (if should_include_path (pyJoin jp d) ig wl = true then
            countHere ig wl (relJoin rp d) sub +
              countSubdirs ig wl (pyJoin jp d) (relJoin rp d) sub
          else 0) := rfl
    have hs : selectedEntry ig wl jp rp (Entry.dir d sub)
        = (if should_include_path (pyJoin jp d) ig wl = true then
            selectedHere ig wl (relJoin rp d) sub ++
              selectedSubdirs ig wl (pyJoin jp d) (relJoin rp d) sub
          else []) := rfl
    by_cases h : should_include_path (pyJoin jp d) ig wl = true
    · rw [hw, hs, if_pos h, if_pos h, List.length_append,
        countHere_eq ig wl (relJoin rp d) sub, hsub]
    · rw [hw, hs, if_neg h, if_neg h]
      rfl
theorem countSubdirs_eq (ig wl : List String) (jp rp : String) :
    ∀ l : EntryList, countSubdirs ig wl jp rp l = (selectedSubdirs ig wl jp rp l).length
  | EntryList.nil => rfl
  | EntryList.cons e rest => by
    rw [show countSubdirs ig wl jp rp (EntryList.cons e rest)
        = countEntry ig wl jp rp e + countSubdirs ig wl jp rp rest from rfl,
      show selectedSubdirs ig wl jp rp (EntryList.cons e rest)
        = selectedEntry ig wl jp rp e ++ selectedSubdirs ig wl jp rp rest from rfl,
      List.length_append, countEntry_eq ig wl jp rp e, countSubdirs_eq ig wl jp rp rest]
end

theorem walkChildren_eq (ig wl : List String) (jp rp : String) (entries : EntryList) :
    walkChildren ig wl jp rp entries
      = listMergeW ((selectedFiles ig wl jp rp entries).map (fun pc => processFile pc.1 pc.2)) := by
  unfold walkChildren selectedFiles
  rw [filesOut_eq, walkSubdirs_eq, List.map_append, listMergeW_append]

theorem listMergeW_progress (sel : List (String × Except String String)) :
    (listMergeW (sel.map (fun pc => processFile pc.1 pc.2))).progress = sel.length := by
  induction sel with
  | nil => rfl
  | cons pc rest ih =>
    rw [List.map_cons, listMergeW_cons]
    show (processFile pc.1 pc.2).progress + (listMergeW _).progress = _
    rw [ih]
    obtain ⟨p, c⟩ := pc
    cases c <;> (show 1 + rest.length = (rest.length + 1); omega)

theorem listMergeW_output_of (sel : List (String × Except String String)) :
    (listMergeW (sel.map (fun pc => processFile pc.1 pc.2))).output
      = joinStrings (sel.map (fun pc =>
          match pc.2 with
          | Except.ok text => fileBlock pc.1 text
          | Except.error _ => "")) := by
  induction sel with
  | nil => rfl
  | cons pc rest ih =>
    rw [List.map_cons, listMergeW_cons, List.map_cons]
    show (processFile pc.1 pc.2).output ++ (listMergeW _).output = _
    rw [ih]
    obtain ⟨p, c⟩ := pc
    cases c <;> rfl

theorem listMergeW_errors_of (sel : List (String × Except String String)) :
    (listMergeW (sel.map (fun pc => processFile pc.1 pc.2))).errors
      = sel.filterMap (fun pc =>
          match pc.2 with
          | Except.ok _ => none
          | Except.error msg => some (errorLine pc.1 msg)) := by
  induction sel with
  | nil => rfl
  | cons pc rest ih =>
    rw [List.map_cons, listMergeW_cons]
    show (processFile pc.1 pc.2).errors ++ (listMergeW _).errors = _
    rw [ih]
    obtain ⟨p, c⟩ := pc
    cases c <;> rfl

theorem listMergeW_written_of (sel : List (String × Except String String)) :
    (listMergeW (sel.map (fun pc => processFile pc.1 pc.2))).written
      = (sel.filter (fun pc =>
          match pc.2 with
          | Except.ok _ => true
          | Except.error _ => false)).length := by
  induction sel with
  | nil => rfl
  | cons pc rest ih =>
    rw [List.map_cons, listMergeW_cons]
    show (processFile pc.1 pc.2).written + (listMergeW _).written = _
    rw [ih]
    obtain ⟨p, c⟩ := pc
    cases c with
    | ok text =>
      rw [List.filter_cons, if_pos rfl]
      show 1 + _ = _
      rw [List.length_cons]
      omega
    | error msg =>
      rw [List.filter_cons, if_neg Bool.false_ne_true]
      show 0 + _ = _
      omega

/-- C5: the counting pass and the write pass make identical pruning and
inclusion decisions: the total `count_files` returns (the progress-bar
total of `process_repository`) equals the number of files the write pass
selects for processing, which is also the number of progress updates the
write pass performs — included files count whether or not their read later
fails. -/
theorem count_pass_eq_write_pass (repoPath outputFile : String) (ig wl : List String)
    (entries : EntryList) :
    (process_repository repoPath outputFile ig wl entries).total
      = (selectedFiles ig wl repoPath "" entries).length ∧
    (process_repository repoPath outputFile ig wl entries).run.progress
      = (selectedFiles ig wl repoPath "" entries).length := by
  constructor
  · show count_files repoPath ig wl entries = _
    unfold count_files selectedFiles
    rw [countHere_eq, countSubdirs_eq, List.length_append]
  · show (walkChildren ig wl repoPath "" entries).progress = _
    rw [walkChildren_eq, listMergeW_progress]

/-- C7: the write pass renders exactly one framed block per successfully
read included file and nothing — not even a truncated fragment — for an
included file whose read fails; each failed file contributes exactly one
reported error line; and the progress counter advances once per included
file, read failure or not, so the run continues past failures. -/
theorem failed_reads_skipped (ig wl : List String) (jp rp : String) (entries : EntryList) :
    (walkChildren ig wl jp rp entries).output
      = joinStrings ((selectedFiles ig wl jp rp entries).map (fun pc =>
          match pc.2 with
          | Except.ok text => fileBlock pc.1 text
          | Except.error _ => "")) ∧
    (walkChildren ig wl jp rp entries).errors
      = (selectedFiles ig wl jp rp entries).filterMap (fun pc =>
          match pc.2 with
          | Except.ok _ => none
          | Except.error msg => some (errorLine pc.1 msg)) ∧
    (walkChildren ig wl jp rp entries).progress
      = (selectedFiles ig wl jp rp entries).length ∧
    (walkChildren ig wl jp rp entries).written
      = ((selectedFiles ig wl jp rp entries).filter (fun pc =>
          match pc.2 with
          | Except.ok _ => true
          | Except.error _ => false)).length := by
  rw [walkChildren_eq, listMergeW_output_of, listMergeW_errors_of, listMergeW_progress,
    listMergeW_written_of]
  exact ⟨rfl, rfl, rfl, rfl⟩

/-- C8: each successfully read included file contributes exactly the block
`relative path, a line of 20 equals signs, the raw content, a closing line
of 20 equals signs, and a trailing blank line`; concatenating a root with
files `a.txt` ("hello") and `b.txt` ("world") and no patterns yields both
blocks in traversal order with written-block count 2. -/
theorem output_framing :
    (∀ relPath text, processFile relPath (Except.ok text)
      = ⟨relPath ++ "\n" ++ "====================" ++ "\n" ++ text ++ "\n" ++
          "====================" ++ "\n\n", [], 1, 1⟩) ∧
    process_repository "." "repo_contents.txt" [] []
        (ofList [Entry.file "a.txt" (Except.ok "hello"),
          Entry.file "b.txt" (Except.ok "world")])
      = ⟨2, ⟨"a.txt\n====================\nhello\n====================\n\nb.txt\n====================\nworld\n====================\n\n",
          [], 2, 2⟩⟩ :=
  ⟨fun _ _ => rfl, rfl⟩

/-- C3 (code evaluated at the failing input): with repository root `.`, no
ignore patterns and whitelist `["src/**"]`, the file path `src/a.txt` itself
passes the inclusion policy, but the walk tests the directory `src` as the
joined path `./src`, which fails the whitelist, so `src` is pruned and the
run writes nothing — `src/a.txt` is not included in the output, contrary to
the claim. -/
theorem whitelist_prunes_src :
    should_include_path "src/a.txt" [] ["src/**"] = true ∧
    should_include_path (pyJoin "." "src") [] ["src/**"] = false ∧
    (process_repository "." "repo_contents.txt" [] ["src/**"]
        (ofList [Entry.dir "src" (ofList [Entry.file "a.txt" (Except.ok "alpha")]),
          Entry.dir "docs" (ofList [Entry.file "readme.md" (Except.ok "beta")])])).run
      = ⟨"", [], 0, 0⟩ :=
  ⟨rfl, rfl, rfl⟩

/-- C4 (code evaluated at the failing input): with repository root `.` and
ignore `["node_modules/"]`, the walk tests the directory as the joined path
`./node_modules`, which the ignore pattern does not match, so the directory
is **not** pruned and the walk visits the whole subtree — contrary to the
claim's pruning statement; the per-file relative-path check still excludes
every file inside, so no read is attempted and nothing is written. -/
theorem node_modules_not_pruned :
    should_include_path (pyJoin "." "node_modules") ["node_modules/"] [] = true ∧
    visitedSubdirs ["node_modules/"] [] "." ""
        (ofList [Entry.dir "node_modules" (ofList [Entry.dir "anything"
          (ofList [Entry.file "deep.js" (Except.ok "var x = 1")])])])
      = ["node_modules", "node_modules/anything"] ∧
    selectedFiles ["node_modules/"] [] "." ""
        (ofList [Entry.dir "node_modules" (ofList [Entry.dir "anything"
          (ofList [Entry.file "deep.js" (Except.ok "var x = 1")])])])
      = [] ∧
    (process_repository "." "repo_contents.txt" ["node_modules/"] []
        (ofList [Entry.dir "node_modules" (ofList [Entry.dir "anything"
          (ofList [Entry.file "deep.js" (Except.ok "var x = 1")])])])).run.output
      = "" :=
  ⟨rfl, rfl, rfl, rfl⟩

end Repo2File
